import Mathlib

/-!
Verification of the `tscriptify` command-line tool
(`egtann/typescriptify-golang-structs`, file `tscriptify/main.go`).

The development shallowly embeds the Go program:
* Go strings are Lean `String`s (operated on through their `.data` char lists);
* the `go/ast` visitor (`AVisitor.Visit`) becomes a step function over an
  abstract node sequence (the depth-first traversal order of the parsed file);
* `main`'s loop over positional arguments, the alias map `paths`, the
  struct-reference filter, the template rendering and the subprocess execution
  become pure functions; the filesystem and the `go` toolchain become an
  explicit environment of oracles;
* process-level effects (`os.Exit(1)`, `panic`, temp-file creation,
  printing captured subprocess output) are reified into an outcome type.
-/

-- Equality of modelled fallible results is decidable (used only to evaluate
-- the development on concrete inputs).
deriving instance DecidableEq for Except

/- ### Character and string primitives (Go `strings` / `unicode` semantics) -/

/-- Embeds `unicode.IsSpace` (the white-space classes used by
`strings.TrimSpace`): ASCII spaces plus the Latin-1 and Unicode space
code points. -/
def goIsSpace (c : Char) : Bool :=
  let v := c.val.toNat
  v = 32 || v = 9 || v = 10 || v = 11 || v = 12 || v = 13 ||
    v = 0x85 || v = 0xA0 || v = 0x1680 ||
    (0x2000 ≤ v && v ≤ 0x200A) ||
    v = 0x2028 || v = 0x2029 || v = 0x202F || v = 0x205F || v = 0x3000

/-- Embeds `strings.TrimSpace`: drop white space from both ends. -/
def goTrimSpace (s : String) : String :=
  ⟨((s.data.dropWhile goIsSpace).reverse.dropWhile goIsSpace).reverse⟩

/-- The first byte of a character's UTF-8 encoding (what Go's `name[0]`
reads): the code point itself below `0x80`, otherwise the UTF-8 lead byte. -/
def utf8FirstByte (c : Char) : Nat :=
  let v := c.val.toNat
  if v < 0x80 then v
  else if v < 0x800 then 0xC0 + v / 64
  else if v < 0x10000 then 0xE0 + v / 4096
  else 0xF0 + v / 262144

/-- `unicode.IsUpper` on a code point in `0..255` (the range of
`rune(byte)`): the upper-case letters of Basic Latin and Latin-1 are `A`–`Z`,
`À`–`Ö`, and `Ø`–`Þ`. -/
def goIsUpperLatin1 (b : Nat) : Bool :=
  (65 ≤ b && b ≤ 90) || (192 ≤ b && b ≤ 214) || (216 ≤ b && b ≤ 222)

/-- `unicode.IsLower` on a code point in `0..255`: `a`–`z`, `µ`, `ß`–`ö`,
and `ø`–`ÿ`. -/
def goIsLowerLatin1 (b : Nat) : Bool :=
  (97 ≤ b && b ≤ 122) || b = 181 || (223 ≤ b && b ≤ 246) || (248 ≤ b && b ≤ 255)

/-- Embeds `unicode.IsUpper(rune(name[0]))` from `AVisitor.Visit`: the FIRST
BYTE of the name's UTF-8 encoding, widened to a code point (hence in
`0..255`), tested against the Unicode upper-case table.  For an ASCII-initial
name this says "begins with an upper-case letter"; for a multi-byte initial
character it tests the lead byte, so e.g. `"ä"` (first byte `0xC3` = `Ã`)
passes although `ä` is lower-case.  (An empty name would make the Go code
panic on the index; it is mapped to `false` here, and parsed identifiers are
never empty.) -/
def goIsUpperFirst (s : String) : Bool :=
  match s.data with
  | [] => false
  | c :: _ => goIsUpperLatin1 (utf8FirstByte c)

/-- `revStartsWith l p` : `p` is a prefix of `l` (both already reversed by the
caller when used for suffix tests). -/
def revStartsWith : List Char → List Char → Bool
  | _, [] => true
  | [], _ :: _ => false
  | a :: as, b :: bs => a = b && revStartsWith as bs

/-- Embeds `strings.HasSuffix`. -/
def goHasSuffix (s suffix : String) : Bool :=
  revStartsWith s.data.reverse suffix.data.reverse

/-- Embeds `strings.HasPrefix(str, ".")`. -/
def goStartsWithDot (s : String) : Bool :=
  match s.data with
  | '.' :: _ => true
  | _ => false

/-- Embeds `strings.Contains(str, string(filepath.Separator))` with the Unix
separator `'/'`. -/
def goContainsSep (s : String) : Bool :=
  s.data.any (fun c => c = '/')

/-- Decimal digit character, as produced by `fmt.Sprintf("%d", ...)`. -/
def digitChar (d : Nat) : Char :=
  if d = 0 then '0' else if d = 1 then '1' else if d = 2 then '2'
  else if d = 3 then '3' else if d = 4 then '4' else if d = 5 then '5'
  else if d = 6 then '6' else if d = 7 then '7' else if d = 8 then '8'
  else '9'

/-- Decimal digits of `n`, most significant first, pushed onto `acc`.
Structural recursion on `fuel`, which the caller picks at least as large as
the digit count. -/
def natToStrAux : Nat → Nat → List Char → List Char
  | 0, _, acc => acc
  | fuel + 1, n, acc =>
    let acc' := digitChar (n % 10) :: acc
    if n < 10 then acc' else natToStrAux fuel (n / 10) acc'

/-- Embeds `fmt.Sprintf("%d", n)` for a natural number (`n + 1` units of fuel
always cover the decimal digits of `n`). -/
def natToStr (n : Nat) : String := ⟨natToStrAux (n + 1) n []⟩

/- ### Lexical path model (Go `path/filepath`, Unix separator)

`main` computes `filepath.Dir(filepath.Join(p.ModelsPackage, structOrGoFile))`.
`Join` and `Dir` belong to the Go standard library (outside this repository's
source); they are embedded here by their documented lexical semantics:
`Clean` drops empty and `.` elements, resolves `..` against preceding
elements, keeps leading `..`s of a relative path, and turns an empty result
into `.`. -/

/-- Split a character list on `'/'`. -/
def splitSlashAux (cur : List Char) : List Char → List String
  | [] => [⟨cur.reverse⟩]
  | c :: rest =>
    if c = '/' then ⟨cur.reverse⟩ :: splitSlashAux [] rest
    else splitSlashAux (c :: cur) rest

/-- Process the path elements of `filepath.Clean`: `acc` holds the cleaned
elements in reverse. -/
def cleanElems (rooted : Bool) : List String → List String → List String
  | acc, [] => acc.reverse
  | acc, e :: rest =>
    if e = "" then cleanElems rooted acc rest
    else if e = "." then cleanElems rooted acc rest
    else if e = ".." then
      match acc with
      | [] =>
        if rooted then cleanElems rooted [] rest
        else cleanElems rooted [".."] rest
      | a :: as =>
        if a = ".." then cleanElems rooted (".." :: a :: as) rest
        else cleanElems rooted as rest
    else cleanElems rooted (e :: acc) rest

/-- Join a list of path elements with `'/'`. -/
def joinSlash : List String → String
  | [] => ""
  | [s] => s
  | s :: rest => s ++ "/" ++ joinSlash rest

/-- Embeds `filepath.Clean` (Unix). -/
def goClean (path : String) : String :=
  if path = "" then "."
  else
    let rooted : Bool :=
      match path.data with
      | '/' :: _ => true
      | _ => false
    let elems := cleanElems rooted [] (splitSlashAux [] path.data)
    match elems with
    | [] => if rooted then "/" else "."
    | _ => (if rooted then "/" else "") ++ joinSlash elems

/-- Embeds `filepath.Join(a, b)` (Unix): leading empty elements are skipped,
then the elements are joined with `'/'` and cleaned. -/
def goJoin (a b : String) : String :=
  if a = "" then (if b = "" then "" else goClean b)
  else goClean (a ++ "/" ++ b)

/-- Embeds `filepath.Dir` (Unix): everything up to and including the final
separator, cleaned. -/
def goDir (path : String) : String :=
  goClean ⟨(path.data.reverse.dropWhile (fun c => c ≠ '/')).reverse⟩

/- ### The declaration scanner (`AVisitor.Visit`, `GetGolangFileStructs`)

`ast.Walk` performs one depth-first traversal of the parsed file, invoking
`Visit` on every non-nil node in traversal order (the `Visit(nil)` calls that
close subtrees leave the visitor untouched and are omitted).  Only three node
shapes matter to the visitor: identifiers (with their name), struct-type
nodes, and everything else. -/

/-- One AST node as seen by `AVisitor.Visit`. -/
inductive Node where
  | ident (name : String)
  | structType
  | other
  deriving DecidableEq, Repr

/-- The visitor's mutable fields. -/
structure VisitorState where
  structNameCandidate : String
  structs : List String
  deriving DecidableEq, Repr

/-- Embeds one call of `AVisitor.Visit` on a non-nil node. -/
def visitStep (s : VisitorState) (n : Node) : VisitorState :=
  match n with
  | .ident name =>
    if goIsUpperFirst name then { s with structNameCandidate := name }
    else { s with structNameCandidate := "" }
  | .structType =>
    if 0 < s.structNameCandidate.length then
      if goIsUpperFirst s.structNameCandidate then
        { structNameCandidate := "",
          structs := s.structs ++ [s.structNameCandidate] }
      else { s with structNameCandidate := "" }
    else s
  | .other => { s with structNameCandidate := "" }

/-- Embeds `GetGolangFileStructs` on the depth-first node sequence of a file
that parsed successfully: walk the nodes and return the collected names.
(A parse failure is handled by the caller and modelled there.) -/
def GetGolangFileStructs (nodes : List Node) : List String :=
  (nodes.foldl visitStep { structNameCandidate := "", structs := [] }).structs

/-- Modelled from the spec: the declarative reading of the scanner contract —
the names of exactly those struct-type nodes whose immediately preceding node
is an identifier beginning with an upper-case letter, in the order the pairs
appear in the file. -/
def adjacentStructNames : List Node → List String
  | [] => []
  | [_] => []
  | a :: b :: rest =>
    (match a, b with
     | .ident n, .structType => if goIsUpperFirst n then [n] else []
     | _, _ => []) ++ adjacentStructNames (b :: rest)

/-- Names emitted by the remaining traversal, starting from pending
candidate `c`. -/
def emitFrom (c : String) : List Node → List String
  | [] => []
  | .ident n :: rest => emitFrom (if goIsUpperFirst n then n else "") rest
  | .structType :: rest =>
    (if 0 < c.length then if goIsUpperFirst c then [c] else [] else []) ++
      emitFrom (if 0 < c.length then "" else c) rest
  | .other :: rest => emitFrom "" rest

/-- The emission the pending candidate `c` causes on the very next node. -/
def pendEmit (c : String) : List Node → List String
  | .structType :: _ =>
    if 0 < c.length then if goIsUpperFirst c then [c] else [] else []
  | _ => []

/- ### The package alias resolver (`paths` map in `main`)

The Go map `paths : map[string]int` keyed by resolved directory is embedded
as an association list in insertion order (Go map iteration order is
unspecified; nothing proved below depends on iteration order of more than one
entry). -/

/-- Go map lookup `paths[path]`. -/
def lookupPath : List (String × Nat) → String → Option Nat
  | [], _ => none
  | (k, v) :: rest, d => if k = d then some v else lookupPath rest d

/-- Embeds lines 103–107 of `main`: return the existing alias for `path`, or
allocate the next index `len(paths)`. -/
def resolveAlias (paths : List (String × Nat)) (path : String) :
    Nat × List (String × Nat) :=
  match lookupPath paths path with
  | some n => (n, paths)
  | none => (paths.length, paths ++ [(path, paths.length)])

/-- The association list pairing `ks` with consecutive indices from `k`. -/
def indexPairs (k : Nat) : List String → List (String × Nat)
  | [] => []
  | d :: ds => (d, k) :: indexPairs (k + 1) ds

/-- Index of the first occurrence of `d` in `l` (length of `l` if absent). -/
def idxOfD : List String → String → Nat
  | [], _ => 0
  | k :: rest, d => if k = d then 0 else idxOfD rest d + 1

/-- Record `d` as seen, keeping first-seen order. -/
def seenAdd (acc : List String) (d : String) : List String :=
  if d ∈ acc then acc else acc ++ [d]

/-- Fold `seenAdd` over a directory list, starting from `acc`. -/
def firstSeenFrom (acc : List String) : List String → List String
  | [] => acc
  | d :: ds => firstSeenFrom (seenAdd acc d) ds

/-- Modelled from the spec: the distinct directories in first-seen order. -/
def firstSeen (ds : List String) : List String := firstSeenFrom [] ds

/-- The alias map produced by resolving the directories `ds` in order,
starting from the empty map. -/
def buildPaths (ds : List String) : List (String × Nat) :=
  ds.foldl (fun ps d => (resolveAlias ps d).2) []

/- ### Struct-reference collection (`main`, lines 95–115) -/

/-- `fmt.Sprintf("m%d.%s", n, s)`. -/
def qualify (n : Nat) (s : String) : String :=
  "m" ++ natToStr n ++ "." ++ s

/-- Embeds the loop over `flag.Args()`: a positional argument without the
`.go` suffix is appended verbatim; a `.go` argument first has its directory
resolved to an alias (before parsing, as in the source), then is parsed —
a parse error aborts with the panic message of line 110 — and each discovered
struct name is appended qualified as `m<n>.<name>`. -/
def collectLoop (parse : String → Except String (List String)) (pkg : String) :
    List String → List String → List (String × Nat) →
      Except String (List String × List (String × Nat))
  | [], structs, paths => .ok (structs, paths)
  | a :: rest, structs, paths =>
    if goHasSuffix a ".go" then
      let r := resolveAlias paths (goDir (goJoin pkg a))
      match parse a with
      | .error e =>
        .error ("Error loading/parsing golang file " ++ a ++ ": " ++ e)
      | .ok fileStructs =>
        collectLoop parse pkg rest
          (structs ++ fileStructs.map (fun s => qualify r.1 s)) r.2
    else collectLoop parse pkg rest (structs ++ [a]) paths

/-- The struct-name list of a successful parse (`[]` on error; only used
where the parse is known to succeed). -/
def getOk : Except String (List String) → List String
  | .ok l => l
  | .error _ => []

/-- The resolved directories of the `.go` positional arguments, in argument
order. -/
def goDirs (pkg : String) (args : List String) : List String :=
  (args.filter (fun a => goHasSuffix a ".go")).map (fun a => goDir (goJoin pkg a))

/-- Modelled from the spec: the contribution of one positional argument to
the reference list — a bare name stands by itself at its position, a `.go`
file contributes its discovered names in declaration order, qualified with
the alias its directory has in the first-seen directory list `F`. -/
def specEntry (parse : String → Except String (List String)) (F : List String)
    (pkg : String) (a : String) : List String :=
  if goHasSuffix a ".go" then
    (getOk (parse a)).map (fun s => qualify (idxOfD F (goDir (goJoin pkg a))) s)
  else [a]

/-- Concatenate the per-argument contributions in argument order. -/
def specList (f : String → List String) : List String → List String
  | [] => []
  | a :: rest => f a ++ specList f rest

/- ### The reference filter (`main`, lines 132–144) -/

/-- Modelled from the spec: a trimmed candidate survives the filter iff it
does not begin with `.`, contains no path separator, and is non-empty. -/
def structKeep (s : String) : Bool :=
  !goStartsWithDot s && !goContainsSep s && decide (0 < s.length)

/-- One iteration of the `structsArr` loop (lines 133–144): trim the
candidate, drop it if it begins with `.`, contains the path separator, or is
empty, and append the trimmed survivor. -/
def filterStep (acc : List String) (str0 : String) : List String :=
  let str := goTrimSpace str0
  if goStartsWithDot str then acc
  else if goContainsSep str then acc
  else if 0 < str.length then acc ++ [str]
  else acc

/-- Embeds the `structsArr` loop: fold `filterStep` over the candidates. -/
def structsFilter (structs : List String) : List String :=
  structs.foldl filterStep []

/- ### Driver-program synthesis (the `TEMPLATE` constant, `t.Execute`) -/

/-- The template parameters (`Params` in the source, after `main` has filled
every field). `InitParams` is an association list; the Go template ranges over
the map in sorted key order, and `main` ever stores the single key
`"BackupDir"`. -/
structure Params where
  ModelsPackage : String
  TargetFile : String
  Structs : List String
  InitParams : List (String × String)
  CustomImports : List String
  Interface : Bool
  Verbose : Bool
  ExtraImports : String
  ExtraCommands : String
  Models : String
  deriving DecidableEq, Repr

/-- `fmt.Sprintf("%q", s)` for the plain paths and directories this tool
handles (no characters needing escapes). -/
def goQuote (s : String) : String := "\"" ++ s ++ "\""

/-- How the Go template prints a `bool`. -/
def goBool (b : Bool) : String := if b then "true" else "false"

/-- One import line of the synthesized program: `fmt.Sprintf("m%d %q", v, k)`
(line 164). -/
def modelLine (kv : String × Nat) : String :=
  "m" ++ natToStr kv.2 ++ " " ++ goQuote kv.1

/-- The `{{ .Models }}` text: the import lines joined with `"\n\t"`
(line 166; Go iterates the map in unspecified order — the insertion order is
used here, and nothing below depends on the order of more than one entry). -/
def modelsText (paths : List (String × Nat)) : String :=
  String.intercalate "\n\t" (paths.map modelLine)

/-- One register-type statement of the template:
`\tt.Add({{ . }}{})\n`. -/
def addLine (s : String) : String := "\tt.Add(" ++ s ++ "\x7b\x7d)\n"

/-- One custom-import statement of the template:
`\tt.AddImport("{{ . }}")\n`. -/
def customImportLine (c : String) : String :=
  "\tt.AddImport(\"" ++ c ++ "\")\n"

/-- One scalar-initialization line of the template:
`\tt.{{ $key }}={{ $value }}\n`. -/
def initLine (kv : String × String) : String :=
  "\tt." ++ kv.1 ++ "=" ++ kv.2 ++ "\n"

/-- Embeds `t.Execute` of the parsed `TEMPLATE`: the complete synthesized
driver-program text. -/
def renderProgram (p : Params) : String :=
  "package main\n\nimport (\n\t" ++ p.Models ++
    "\n\t\"github.com/tkrajina/typescriptify-golang-structs/typescriptify\"\n" ++
    p.ExtraImports ++
    "\n)\n\nfunc main() \x7b\n\tt := typescriptify.New()\n\tt.CreateInterface = " ++
    goBool p.Interface ++ "\n" ++
    String.join (p.InitParams.map initLine) ++ "\n" ++
    String.join (p.Structs.map addLine) ++ "\n" ++
    String.join (p.CustomImports.map customImportLine) ++ "\n\t" ++
    p.ExtraCommands ++
    "\n\terr := t.ConvertToFile(\"" ++ p.TargetFile ++
    "\")\n\tif err != nil \x7b\n\t\tpanic(err.Error())\n\t\x7d\n\x7d\n\ntype enum[T any] struct \x7b\n\tValue  T\n\tTSName string\n\x7d\n\nfunc stringEnum[T ~string](xs []T) []enum[T] \x7b\n\tout := make([]enum[T], 0, len(xs))\n\tfor _, x := range xs \x7b\n\t\tout = append(out, enum[T]\x7b\n\t\t\tValue: x,\n\t\t\tTSName: string(x),\n\t\t\x7d)\n\t\x7d\n\treturn out\n\x7d"

/- ### The whole invocation (`main`) -/

/-- The parsed command-line flags. -/
structure Flags where
  modelsPackage : String
  targetFile : String
  extraImports : String
  extraCommands : String
  backupDir : String
  interfaceFlag : Bool
  customImports : List String
  verbose : Bool
  deriving Repr

/-- The outside world: the Go parser on a named file (`GetGolangFileStructs`
composed over `parser.ParseFile`, returning the discovered struct names or
the parse error), `os.ReadFile`, and `go run` on the synthesized program
(combined output and whether the child succeeded). -/
structure Env where
  parseGoFile : String → Except String (List String)
  readFile : String → Except String String
  runGo : String → String × Bool

/-- What the process did, with the side effects the claims talk about. -/
inductive MainOutcome where
  /-- A positional `.go` file failed to parse: `panic` of line 110, raised
  before flag validation and before the temporary file exists. -/
  | parsePanic (msg : String)
  /-- `os.Exit(1)` after `No package given` (line 119). -/
  | exitNoPackage
  /-- `os.Exit(1)` after `No target file` (line 123). -/
  | exitNoTarget
  /-- `handleErr` panic while reading an injection file; the temporary file
  already exists. -/
  | ioPanic (msg : String)
  /-- The `go run` child failed: its combined output was printed to standard
  output, then `handleErr` panicked; `printedOutput` is the text printed
  before the abort and `errProgram` the synthesized program that was run. -/
  | runFailure (printedOutput : String) (errProgram : String)
  /-- The pipeline completed; `program` is the synthesized driver. -/
  | ok (program : String)
  deriving DecidableEq, Repr

/-- Whether the temporary file was created (`os.CreateTemp`, line 128) before
the invocation ended. -/
def tempFileCreated : MainOutcome → Bool
  | .parsePanic _ => false
  | .exitNoPackage => false
  | .exitNoTarget => false
  | _ => true

/-- The subprocess output printed to standard output before a fatal abort. -/
def printedOnFailure : MainOutcome → Option String
  | .runFailure out _ => some out
  | _ => none

/-- Whether the invocation ended in a fatal abort (a `panic`). -/
def fatalFailure : MainOutcome → Bool
  | .parsePanic _ => true
  | .ioPanic _ => true
  | .runFailure _ _ => true
  | _ => false

/-- Assemble the `Params` value exactly as `main` does after the temporary
file exists (lines 146–166): filtered references, the `BackupDir` literal,
injected file contents, and the joined import lines. -/
def buildParams (flags : Flags) (structs : List String)
    (paths : List (String × Nat)) (ei ec : String) : Params :=
  { ModelsPackage := flags.modelsPackage
    TargetFile := flags.targetFile
    Structs := structsFilter structs
    InitParams := [("BackupDir", goQuote flags.backupDir)]
    CustomImports := flags.customImports
    Interface := flags.interfaceFlag
    Verbose := flags.verbose
    ExtraImports := ei
    ExtraCommands := ec
    Models := modelsText paths }

/-- Embeds `main` after flag parsing: collect references (panicking on a
parse error), validate the required flags, create the temporary file, filter,
read the injection files, render the template, and `go run` the result,
printing the child's combined output before aborting when it fails.
(`os.CreateTemp`, the template write, and the verbose read-back of the just
written file are modelled as succeeding; each failure would be a `handleErr`
panic.) -/
def tmain (env : Env) (flags : Flags) (args : List String) : MainOutcome :=
  match collectLoop env.parseGoFile flags.modelsPackage args [] [] with
  | .error msg => .parsePanic msg
  | .ok (structs, paths) =>
    if flags.modelsPackage.length = 0 then .exitNoPackage
    else if flags.targetFile.length = 0 then .exitNoTarget
    else
      match (if flags.extraImports = "" then Except.ok ""
             else env.readFile flags.extraImports) with
      | .error e => .ioPanic e
      | .ok ei =>
        match (if flags.extraCommands = "" then Except.ok ""
               else env.readFile flags.extraCommands) with
        | .error e => .ioPanic e
        | .ok ec =>
          let prog := renderProgram (buildParams flags structs paths ei ec)
          match env.runGo prog with
          | (_, true) => .ok prog
          | (out, false) => .runFailure out prog

/-- The type-name part of a struct reference: the text after the last `.`
(the whole reference when it contains no `.`). -/
def typeNamePart (s : String) : String :=
  ⟨(s.data.reverse.takeWhile (fun c => c ≠ '.')).reverse⟩

/-- `pat` is a prefix of the character list. -/
def prefixCheckChars : List Char → List Char → Bool
  | [], _ => true
  | _ :: _, [] => false
  | a :: as, b :: bs => a = b && prefixCheckChars as bs

/-- `pat` occurs somewhere inside the character list. -/
def infixCheckChars (pat : List Char) : List Char → Bool
  | [] => prefixCheckChars pat []
  | c :: rest => prefixCheckChars pat (c :: rest) || infixCheckChars pat rest

/-- Substring test, used to exhibit text inside a rendered program. -/
def strContains (s pat : String) : Bool := infixCheckChars pat.data s.data

/- ### Basic string lemmas -/

theorem strLenPos (s : String) : 0 < s.length ↔ s ≠ "" := by
  rcases s with ⟨data⟩
  cases data with
  | nil => decide
  | cons c cs =>
    constructor
    · intro _ h
      exact absurd (congrArg String.data h) (by simp)
    · intro _
      simp [String.length]

theorem upperFirst_len {s : String} (h : goIsUpperFirst s = true) :
    0 < s.length := by
  rcases s with ⟨data⟩
  cases data with
  | nil => simp [goIsUpperFirst] at h
  | cons c cs => simp [String.length]

/- ### Scanner lemmas -/

theorem foldl_visitStep_structs (ns : List Node) :
    ∀ s : VisitorState,
      (ns.foldl visitStep s).structs =
        s.structs ++ emitFrom s.structNameCandidate ns := by
  induction ns with
  | nil => intro s; simp [emitFrom]
  | cons x rest ih =>
    intro s
    cases x with
    | ident n =>
      rw [List.foldl_cons, ih]
      by_cases h : goIsUpperFirst n <;> simp [visitStep, emitFrom, h]
    | structType =>
      rw [List.foldl_cons, ih]
      by_cases h1 : 0 < s.structNameCandidate.length
      · by_cases h2 : goIsUpperFirst s.structNameCandidate <;>
          simp [visitStep, emitFrom, h1, h2]
      · simp [visitStep, emitFrom, h1]
    | other =>
      rw [List.foldl_cons, ih]
      simp [visitStep, emitFrom]

theorem pendEmit_empty (ns : List Node) : pendEmit "" ns = [] := by
  cases ns with
  | nil => rfl
  | cons b rs => cases b <;> simp [pendEmit]

theorem emitFrom_eq_pend_adj (ns : List Node) :
    ∀ c, emitFrom c ns = pendEmit c ns ++ adjacentStructNames ns := by
  induction ns with
  | nil => intro c; rfl
  | cons x rest ih =>
    intro c
    cases x with
    | ident n =>
      rw [emitFrom, ih]
      cases rest with
      | nil => by_cases hn : goIsUpperFirst n <;>
          simp [pendEmit, adjacentStructNames, hn]
      | cons b rs =>
        cases b with
        | structType =>
          by_cases hn : goIsUpperFirst n
          · have hlen := upperFirst_len hn
            simp [pendEmit, adjacentStructNames, hn, hlen]
          · simp [pendEmit, adjacentStructNames, hn]
        | ident m => simp [pendEmit, adjacentStructNames]
        | other => simp [pendEmit, adjacentStructNames]
    | structType =>
      rw [emitFrom, ih]
      have hc : pendEmit (if 0 < c.length then "" else c) rest = [] := by
        by_cases h : 0 < c.length
        · simp [h, pendEmit_empty]
        · cases rest with
          | nil => rfl
          | cons b rs => cases b <;> simp [pendEmit, h]
      rw [hc]
      cases rest with
      | nil => simp [pendEmit, adjacentStructNames]
      | cons b rs => simp [pendEmit, adjacentStructNames]
    | other =>
      rw [emitFrom, ih, pendEmit_empty]
      cases rest with
      | nil => simp [pendEmit, adjacentStructNames]
      | cons b rs => simp [pendEmit, adjacentStructNames]

theorem scanner_eq_adj (ns : List Node) :
    GetGolangFileStructs ns = adjacentStructNames ns := by
  unfold GetGolangFileStructs
  rw [foldl_visitStep_structs, emitFrom_eq_pend_adj, pendEmit_empty]
  simp

theorem adj_upper :
    ∀ ns : List Node, ∀ n ∈ adjacentStructNames ns, goIsUpperFirst n = true := by
  intro ns
  induction ns with
  | nil => simp [adjacentStructNames]
  | cons a rest ih =>
    cases rest with
    | nil => simp [adjacentStructNames]
    | cons b rs =>
      intro n hn
      cases a with
      | ident m =>
        cases b with
        | structType =>
          rw [adjacentStructNames] at hn
          by_cases hm : goIsUpperFirst m
          · rw [if_pos hm] at hn
            rcases List.mem_append.mp hn with h | h
            · rw [List.mem_singleton] at h
              subst h
              exact hm
            · exact ih n h
          · rw [if_neg hm, List.nil_append] at hn
            exact ih n hn
        | ident k => exact ih n hn
        | other => exact ih n hn
      | structType => exact ih n hn
      | other => exact ih n hn

theorem cand_inv :
    ∀ (ns : List Node) (s : VisitorState),
      (ns.foldl visitStep s).structNameCandidate ≠ "" →
      ((ns.foldl visitStep s).structNameCandidate = s.structNameCandidate ∧
        ns = []) ∨
      ∃ m, ns.getLast? = some (Node.ident m) ∧
        (ns.foldl visitStep s).structNameCandidate = m ∧
        goIsUpperFirst m = true := by
  intro ns
  induction ns using List.reverseRecOn with
  | nil => intro s _; left; exact ⟨rfl, rfl⟩
  | append_singleton ns x _ =>
    intro s h
    rw [List.foldl_append] at h ⊢
    set t := ns.foldl visitStep s with ht
    cases x with
    | ident m =>
      by_cases hm : goIsUpperFirst m
      · right
        refine ⟨m, ?_, ?_, hm⟩
        · simp [List.getLast?_concat]
        · simp [visitStep, hm]
      · exfalso
        apply h
        simp [visitStep, hm]
    | structType =>
      exfalso
      apply h
      by_cases h1 : 0 < t.structNameCandidate.length
      · by_cases h2 : goIsUpperFirst t.structNameCandidate <;>
          simp [visitStep, h1, h2]
      · have : t.structNameCandidate = "" := by
          by_contra hne
          exact h1 ((strLenPos _).mpr hne)
        simp [visitStep, h1, this]
    | other =>
      exfalso
      apply h
      simp [visitStep]

/- ### Claims C6 and C7: the scanner -/

/-- C6 counterexample: for the syntactically valid file `type ä struct{}`
(traversal: the identifier `ä`, then a struct-type node) the scanner DOES
emit a name beginning with a lower-case letter.  The identifier `ä` is
lower-case (`goIsLowerLatin1`) and not upper-case, but its first UTF-8 byte
is `0xC3 = 195` — the upper-case letter `Ã` — so the code's
`unicode.IsUpper(rune(name[0]))` check passes and `"ä"` is collected. -/
theorem scanner_emits_lowercase_counterexample :
    GetGolangFileStructs [Node.ident "ä", Node.structType] = ["ä"] ∧
    goIsLowerLatin1 ('ä'.val.toNat) = true ∧
    goIsUpperLatin1 ('ä'.val.toNat) = false ∧
    utf8FirstByte 'ä' = 195 ∧
    goIsUpperLatin1 195 = true := by
  refine ⟨by decide, by decide, by decide, by decide, by decide⟩

/-- C6 amended: the scanner's guarantee is the first-byte test
`unicode.IsUpper(rune(name[0]))`, not "begins with an upper-case letter":
every collected name passes the first-byte upper-case test; a struct-type
node appended to a traversal extends the output only when the traversal's
last node is an identifier passing that test (and then it emits exactly that
identifier); a non-identifier, non-struct node always clears the pending
candidate; and for a name whose first character is ASCII the first-byte test
coincides with "begins with an upper-case letter" (code point in `65..90`),
recovering the original claim for ASCII identifiers. -/
theorem scanner_exported_only :
    (∀ ns : List Node, ∀ name ∈ GetGolangFileStructs ns,
      goIsUpperFirst name = true) ∧
    (∀ pre : List Node,
      GetGolangFileStructs (pre ++ [Node.structType]) ≠
          GetGolangFileStructs pre →
      ∃ m, pre.getLast? = some (Node.ident m) ∧ goIsUpperFirst m = true ∧
        GetGolangFileStructs (pre ++ [Node.structType]) =
          GetGolangFileStructs pre ++ [m]) ∧
    (∀ s : VisitorState, (visitStep s Node.other).structNameCandidate = "") ∧
    (∀ (c : Char) (rest : List Char), c.val.toNat < 128 →
      goIsUpperFirst ⟨c :: rest⟩ =
        (65 ≤ c.val.toNat && c.val.toNat ≤ 90)) := by
  refine ⟨?_, ?_, fun s => rfl, ?_⟩
  · intro ns name hmem
    rw [scanner_eq_adj] at hmem
    exact adj_upper ns name hmem
  · intro pre hne
    unfold GetGolangFileStructs at hne ⊢
    rw [List.foldl_append] at hne ⊢
    set t := pre.foldl visitStep { structNameCandidate := "", structs := [] }
      with ht
    simp only [List.foldl_cons, List.foldl_nil] at hne ⊢
    by_cases h1 : 0 < t.structNameCandidate.length
    · by_cases h2 : goIsUpperFirst t.structNameCandidate
      · have hcand : t.structNameCandidate ≠ "" := (strLenPos _).mp h1
        rcases cand_inv pre _ hcand with ⟨_, hnil⟩ | ⟨m, hlast, hcc, hup⟩
        · subst hnil
          exact absurd (by rw [ht]; rfl : t.structNameCandidate = "") hcand
        · refine ⟨m, hlast, hup, ?_⟩
          rw [← hcc]
          simp [visitStep, h1, h2]
      · exfalso
        apply hne
        simp [visitStep, h1, h2]
    · exfalso
      apply hne
      simp [visitStep, h1]
  · intro c rest h
    show goIsUpperLatin1 (utf8FirstByte c) = _
    unfold utf8FirstByte goIsUpperLatin1
    rw [if_pos h]
    have hb : decide (192 ≤ c.val.toNat) = false := decide_eq_false (by omega)
    have hb2 : decide (216 ≤ c.val.toNat) = false := decide_eq_false (by omega)
    simp [hb, hb2]

/-- Closed instance of the conditional parts of `scanner_exported_only`: the
traversal `[ident "Foo"]` followed by a struct-type node emits, the emission
is attributed to the identifier `Foo`, and on the ASCII-initial `"Foo"` the
first-byte test agrees with the upper-case-letter test. -/
theorem scanner_exported_only_witness :
    (GetGolangFileStructs [Node.ident "Foo", Node.structType] ≠
      GetGolangFileStructs [Node.ident "Foo"]) ∧
    (∃ m, [Node.ident "Foo"].getLast? = some (Node.ident m) ∧
      goIsUpperFirst m = true ∧
      GetGolangFileStructs [Node.ident "Foo", Node.structType] =
        GetGolangFileStructs [Node.ident "Foo"] ++ [m]) ∧
    ('F'.val.toNat < 128 ∧
      goIsUpperFirst ⟨'F' :: ['o', 'o']⟩ =
        (65 ≤ 'F'.val.toNat && 'F'.val.toNat ≤ 90)) :=
  ⟨by decide, scanner_exported_only.2.1 [Node.ident "Foo"] (by decide),
    by decide, scanner_exported_only.2.2.2 'F' ['o', 'o'] (by decide)⟩

/-- C7: the scanner's output equals the names of the matching declarations
(struct-type nodes immediately preceded by an upper-case identifier) in the
order they occur in the file's traversal. -/
theorem scanner_output_in_textual_order (ns : List Node) :
    GetGolangFileStructs ns = adjacentStructNames ns :=
  scanner_eq_adj ns

/- ### Alias resolver lemmas -/

theorem lookup_indexPairs (ks : List String) :
    ∀ (k : Nat) (d : String),
      lookupPath (indexPairs k ks) d =
        if d ∈ ks then some (k + idxOfD ks d) else none := by
  induction ks with
  | nil => intro k d; simp [indexPairs, lookupPath]
  | cons a rest ih =>
    intro k d
    by_cases ha : a = d
    · subst ha
      simp [indexPairs, lookupPath, idxOfD]
    · rw [indexPairs, lookupPath, if_neg ha, ih]
      by_cases hd : d ∈ rest
      · have : d ∈ a :: rest := List.mem_cons_of_mem a hd
        rw [if_pos hd, if_pos this, idxOfD,
          if_neg (fun h => ha h)]
        congr 1
        omega
      · have : d ∉ a :: rest := by
          intro h
          rcases List.mem_cons.mp h with h | h
          · exact ha h.symm
          · exact hd h
        rw [if_neg hd, if_neg this]

theorem indexPairs_length (ks : List String) :
    ∀ k, (indexPairs k ks).length = ks.length := by
  induction ks with
  | nil => intro k; rfl
  | cons a rest ih => intro k; simp [indexPairs, ih]

theorem indexPairs_concat (ks : List String) :
    ∀ (k : Nat) (d : String),
      indexPairs k (ks ++ [d]) = indexPairs k ks ++ [(d, k + ks.length)] := by
  induction ks with
  | nil => intro k d; simp [indexPairs]
  | cons a rest ih =>
    intro k d
    simp only [List.cons_append, indexPairs, List.append_eq, ih (k + 1) d,
      List.length_cons]
    have h : k + 1 + rest.length = k + (rest.length + 1) := by omega
    rw [h]

theorem idxOfD_append_mem {d : String} {ks : List String} (h : d ∈ ks) :
    ∀ t, idxOfD (ks ++ t) d = idxOfD ks d := by
  induction ks with
  | nil => cases h
  | cons a rest ih =>
    intro t
    by_cases ha : a = d
    · simp [idxOfD, ha]
    · have hd : d ∈ rest := by
        rcases List.mem_cons.mp h with h1 | h1
        · exact absurd h1.symm ha
        · exact h1
      simp [idxOfD, ha, ih hd]

theorem idxOfD_concat_self {d : String} {ks : List String} (h : d ∉ ks) :
    idxOfD (ks ++ [d]) d = ks.length := by
  induction ks with
  | nil => simp [idxOfD]
  | cons a rest ih =>
    have ha : a ≠ d := fun he => h (he ▸ List.mem_cons_self a rest)
    have hr : d ∉ rest := fun hm => h (List.mem_cons_of_mem a hm)
    simp [idxOfD, ha, ih hr]

theorem idxOfD_inj {ks : List String} {d1 d2 : String}
    (h1 : d1 ∈ ks) (h2 : d2 ∈ ks) (he : idxOfD ks d1 = idxOfD ks d2) :
    d1 = d2 := by
  induction ks with
  | nil => cases h1
  | cons a rest ih =>
    by_cases ha1 : a = d1
    · by_cases ha2 : a = d2
      · rw [← ha1, ← ha2]
      · rw [idxOfD, idxOfD, if_pos ha1, if_neg ha2] at he
        omega
    · by_cases ha2 : a = d2
      · rw [idxOfD, idxOfD, if_pos ha2, if_neg ha1] at he
        omega
      · rw [idxOfD, idxOfD, if_neg ha1, if_neg ha2] at he
        have hd1 : d1 ∈ rest := by
          rcases List.mem_cons.mp h1 with h | h
          · exact absurd h.symm ha1
          · exact h
        have hd2 : d2 ∈ rest := by
          rcases List.mem_cons.mp h2 with h | h
          · exact absurd h.symm ha2
          · exact h
        exact ih hd1 hd2 (by omega)

/-- Resolving `d` against the indexed map of `ks` yields the index of `d` in
`seenAdd ks d` and the indexed map of `seenAdd ks d`. -/
theorem resolve_indexPairs (ks : List String) (d : String) :
    resolveAlias (indexPairs 0 ks) d =
      (idxOfD (seenAdd ks d) d, indexPairs 0 (seenAdd ks d)) := by
  unfold resolveAlias seenAdd
  rw [lookup_indexPairs]
  by_cases h : d ∈ ks
  · simp [h]
  · simp [h, indexPairs_length, indexPairs_concat, idxOfD_concat_self h]

/-- Folding the resolver over `ds` from the indexed map of `ks` ends in the
indexed map of the first-seen list. -/
theorem foldResolve_indexPairs (ds : List String) :
    ∀ ks, List.foldl (fun ps d => (resolveAlias ps d).2) (indexPairs 0 ks) ds =
      indexPairs 0 (firstSeenFrom ks ds) := by
  induction ds with
  | nil => intro ks; rfl
  | cons d rest ih =>
    intro ks
    rw [List.foldl_cons, resolve_indexPairs, firstSeenFrom]
    exact ih (seenAdd ks d)

theorem buildPaths_eq_firstSeen (ds : List String) :
    buildPaths ds = indexPairs 0 (firstSeen ds) :=
  foldResolve_indexPairs ds []

theorem firstSeenFrom_mono (ds : List String) :
    ∀ acc, ∃ t, firstSeenFrom acc ds = acc ++ t := by
  induction ds with
  | nil => intro acc; exact ⟨[], by simp [firstSeenFrom]⟩
  | cons d rest ih =>
    intro acc
    rw [firstSeenFrom]
    unfold seenAdd
    by_cases h : d ∈ acc
    · rw [if_pos h]
      exact ih acc
    · rw [if_neg h]
      rcases ih (acc ++ [d]) with ⟨t, ht⟩
      exact ⟨[d] ++ t, by rw [ht, List.append_assoc]⟩

theorem lookup_append_none {m : List (String × Nat)} {d : String}
    (h : lookupPath m d = none) :
    ∀ l2, lookupPath (m ++ l2) d = lookupPath l2 d := by
  induction m with
  | nil => intro l2; rfl
  | cons kv rest ih =>
    intro l2
    rw [lookupPath] at h
    by_cases hk : kv.1 = d
    · rw [if_pos hk] at h
      cases h
    · rw [if_neg hk] at h
      rcases kv with ⟨k, v⟩
      rw [List.cons_append, lookupPath, if_neg hk]
      exact ih h l2

theorem firstSeenFrom_append (ds es : List String) :
    ∀ acc, firstSeenFrom acc (ds ++ es) = firstSeenFrom (firstSeenFrom acc ds) es := by
  induction ds with
  | nil => intro acc; rfl
  | cons d rest ih => intro acc; rw [List.cons_append, firstSeenFrom, firstSeenFrom, ih]

/- ### Claim C3: the alias resolver -/

/-- C3: the alias map after resolving the directory sequence `ds` pairs the
distinct directories, in first-seen order, with the consecutive indices
0, 1, 2, …; resolving is idempotent on any map; two directories holding the
same alias are equal; and an alias, once assigned, survives any further
resolutions; a fresh directory receives the next sequential index. -/
theorem alias_resolution_properties :
    (∀ ds : List String, buildPaths ds = indexPairs 0 (firstSeen ds)) ∧
    (∀ (m : List (String × Nat)) (d : String),
      resolveAlias (resolveAlias m d).2 d = resolveAlias m d) ∧
    (∀ (ds : List String) (d1 d2 : String) (n : Nat),
      lookupPath (buildPaths ds) d1 = some n →
      lookupPath (buildPaths ds) d2 = some n → d1 = d2) ∧
    (∀ (ds es : List String) (d : String) (n : Nat),
      lookupPath (buildPaths ds) d = some n →
      lookupPath (buildPaths (ds ++ es)) d = some n) ∧
    (∀ (ds : List String) (d : String),
      lookupPath (buildPaths ds) d = none →
      (resolveAlias (buildPaths ds) d).1 = (firstSeen ds).length) := by
  refine ⟨buildPaths_eq_firstSeen, ?_, ?_, ?_, ?_⟩
  · intro m d
    unfold resolveAlias
    cases h : lookupPath m d with
    | some n => simp [h]
    | none =>
      have h2 : lookupPath (m ++ [(d, m.length)]) d = some m.length := by
        rw [lookup_append_none h, lookupPath, if_pos rfl]
      simp [h, h2]
  · intro ds d1 d2 n h1 h2
    rw [buildPaths_eq_firstSeen, lookup_indexPairs] at h1 h2
    by_cases m1 : d1 ∈ firstSeen ds
    · by_cases m2 : d2 ∈ firstSeen ds
      · rw [if_pos m1] at h1
        rw [if_pos m2] at h2
        have e1 := Option.some.inj h1
        have e2 := Option.some.inj h2
        exact idxOfD_inj m1 m2 (by omega)
      · rw [if_neg m2] at h2
        cases h2
    · rw [if_neg m1] at h1
      cases h1
  · intro ds es d n h
    rw [buildPaths_eq_firstSeen, lookup_indexPairs] at h
    by_cases m1 : d ∈ firstSeen ds
    · rw [if_pos m1] at h
      rw [buildPaths_eq_firstSeen, lookup_indexPairs]
      have hfs : firstSeen (ds ++ es) =
          firstSeenFrom (firstSeen ds) es := firstSeenFrom_append ds es []
      rcases firstSeenFrom_mono es (firstSeen ds) with ⟨t, ht⟩
      rw [hfs, ht, if_pos (List.mem_append_left t m1), idxOfD_append_mem m1 t]
      exact h
    · rw [if_neg m1] at h
      cases h
  · intro ds d h
    unfold resolveAlias
    rw [h, buildPaths_eq_firstSeen, indexPairs_length]

/-- Closed instance of the conditional clauses of
`alias_resolution_properties`: with the directory sequence `["a", "b"]`, the
directory `"b"` holds alias `1`, and the injectivity clause applied to it
returns `"b" = "b"`. -/
theorem alias_resolution_witness :
    lookupPath (buildPaths ["a", "b"]) "b" = some 1 ∧ "b" = "b" :=
  ⟨by decide,
    alias_resolution_properties.2.2.1 ["a", "b"] "b" "b" 1 (by decide) (by decide)⟩

/- ### Filter lemmas -/

theorem filterStep_foldl (l : List String) :
    ∀ acc, l.foldl filterStep acc =
      acc ++ (l.map goTrimSpace).filter structKeep := by
  induction l with
  | nil => intro acc; simp
  | cons a rest ih =>
    intro acc
    rw [List.foldl_cons, List.map_cons, List.filter_cons]
    by_cases h1 : goStartsWithDot (goTrimSpace a)
    · have hk : structKeep (goTrimSpace a) = false := by
        simp [structKeep, h1]
      rw [ih, hk]
      simp [filterStep, h1]
    · by_cases h2 : goContainsSep (goTrimSpace a)
      · have hk : structKeep (goTrimSpace a) = false := by
          simp [structKeep, h1, h2]
        rw [ih, hk]
        simp [filterStep, h1, h2]
      · by_cases h3 : 0 < (goTrimSpace a).length
        · have hk : structKeep (goTrimSpace a) = true := by
            simp [structKeep, h1, h2, h3]
          rw [ih, hk]
          simp [filterStep, h1, h2, h3]
        · have hk : structKeep (goTrimSpace a) = false := by
            simp [structKeep, h1, h2, h3]
          rw [ih, hk]
          simp [filterStep, h1, h2, h3]

theorem structsFilter_eq_filter (l : List String) :
    structsFilter l = (l.map goTrimSpace).filter structKeep := by
  rw [structsFilter, filterStep_foldl]
  simp

/- ### Character-class helper lemmas -/

theorem digitChar_bounds (d : Nat) :
    48 ≤ (digitChar d).val.toNat ∧ (digitChar d).val.toNat ≤ 57 := by
  unfold digitChar
  split_ifs <;> decide

theorem natToStrAux_bounds :
    ∀ (fuel n : Nat) (acc : List Char),
      (∀ c ∈ acc, 48 ≤ c.val.toNat ∧ c.val.toNat ≤ 57) →
      ∀ c ∈ natToStrAux fuel n acc, 48 ≤ c.val.toNat ∧ c.val.toNat ≤ 57 := by
  intro fuel
  induction fuel with
  | zero => intro n acc hacc c hc; exact hacc c hc
  | succ fuel ih =>
    intro n acc hacc c hc
    rw [natToStrAux] at hc
    have hacc2 : ∀ c2 ∈ digitChar (n % 10) :: acc,
        48 ≤ c2.val.toNat ∧ c2.val.toNat ≤ 57 := by
      intro c2 hc2
      rcases List.mem_cons.mp hc2 with h1 | h1
      · exact h1 ▸ digitChar_bounds (n % 10)
      · exact hacc c2 h1
    by_cases h : n < 10
    · rw [if_pos h] at hc
      exact hacc2 c hc
    · rw [if_neg h] at hc
      exact ih (n / 10) (digitChar (n % 10) :: acc) hacc2 c hc

theorem natToStr_bounds (n : Nat) :
    ∀ c ∈ (natToStr n).data, 48 ≤ c.val.toNat ∧ c.val.toNat ≤ 57 :=
  natToStrAux_bounds (n + 1) n [] (by intro c hc; cases hc)

theorem digit_plain {c : Char} (h48 : 48 ≤ c.val.toNat) (h57 : c.val.toNat ≤ 57) :
    goIsSpace c = false ∧ c ≠ '.' ∧ c ≠ '/' := by
  refine ⟨?_, ?_, ?_⟩
  · simp only [goIsSpace, Bool.or_eq_false_iff, decide_eq_false_iff_not,
      Bool.and_eq_false_iff, decide_eq_true_eq]
    omega
  · intro he
    rw [he] at h48
    revert h48
    decide
  · intro he
    rw [he] at h48
    revert h48
    decide

theorem dropWhile_all_false {p : Char → Bool} :
    ∀ l : List Char, (∀ c ∈ l, p c = false) → l.dropWhile p = l := by
  intro l h
  cases l with
  | nil => rfl
  | cons a rest =>
    rw [List.dropWhile_cons, h a (List.mem_cons_self a rest)]
    simp

theorem goTrimSpace_id {s : String} (h : ∀ c ∈ s.data, goIsSpace c = false) :
    goTrimSpace s = s := by
  rcases s with ⟨d⟩
  unfold goTrimSpace
  simp only at h
  rw [dropWhile_all_false d h,
    dropWhile_all_false d.reverse (fun c hc => h c (List.mem_reverse.mp hc)),
    List.reverse_reverse]

/- ### Collector lemmas -/

theorem mem_seenAdd (ks : List String) (d : String) : d ∈ seenAdd ks d := by
  unfold seenAdd
  by_cases h : d ∈ ks
  · rw [if_pos h]; exact h
  · rw [if_neg h]; exact List.mem_append_right ks (List.mem_singleton.mpr rfl)

theorem goDirs_cons_go {a : String} (pkg : String) (rest : List String)
    (h : goHasSuffix a ".go" = true) :
    goDirs pkg (a :: rest) = goDir (goJoin pkg a) :: goDirs pkg rest := by
  simp [goDirs, List.filter_cons, h]

theorem goDirs_cons_nongo {a : String} (pkg : String) (rest : List String)
    (h : goHasSuffix a ".go" = false) :
    goDirs pkg (a :: rest) = goDirs pkg rest := by
  simp [goDirs, List.filter_cons, h]

/-- The collector, run from the indexed map of the already-seen directories
`ks`, appends to `structs` exactly the per-argument contributions of
`specEntry` (with aliases read off the final first-seen directory list) and
ends with the indexed map of that final list. -/
theorem collect_spec :
    ∀ (args : List String) (parse : String → Except String (List String))
      (pkg : String) (ks structs S : List String) (P : List (String × Nat)),
      collectLoop parse pkg args structs (indexPairs 0 ks) = .ok (S, P) →
      S = structs ++
        specList (specEntry parse (firstSeenFrom ks (goDirs pkg args)) pkg) args ∧
      P = indexPairs 0 (firstSeenFrom ks (goDirs pkg args)) := by
  intro args
  induction args with
  | nil =>
    intro parse pkg ks structs S P h
    rw [collectLoop] at h
    injection h with h
    injection h with hS hP
    subst hS
    subst hP
    simp [goDirs, firstSeenFrom, specList]
  | cons a rest ih =>
    intro parse pkg ks structs S P h
    rw [collectLoop] at h
    by_cases hgo : goHasSuffix a ".go"
    · rw [if_pos hgo] at h
      rw [resolve_indexPairs] at h
      set d := goDir (goJoin pkg a) with hd
      cases hp : parse a with
      | error e =>
        rw [hp] at h
        cases h
      | ok l =>
        rw [hp] at h
        simp only at h
        have hrec := ih parse pkg (seenAdd ks d)
          (structs ++ l.map (fun s => qualify (idxOfD (seenAdd ks d) d) s)) S P h
        rcases hrec with ⟨hS, hP⟩
        have hdirs : goDirs pkg (a :: rest) = d :: goDirs pkg rest :=
          goDirs_cons_go pkg rest hgo
        have hF : firstSeenFrom ks (goDirs pkg (a :: rest)) =
            firstSeenFrom (seenAdd ks d) (goDirs pkg rest) := by
          rw [hdirs, firstSeenFrom]
        constructor
        · rw [hS, hF, specList]
          rcases firstSeenFrom_mono (goDirs pkg rest) (seenAdd ks d) with ⟨t, ht⟩
          have hidx : idxOfD (firstSeenFrom (seenAdd ks d) (goDirs pkg rest)) d =
              idxOfD (seenAdd ks d) d := by
            rw [ht, idxOfD_append_mem (mem_seenAdd ks d) t]
          rw [specEntry, if_pos hgo, hp]
          simp only [getOk, ← hd, hidx]
          rw [List.append_assoc]
        · rw [hP, hF]
    · rw [if_neg hgo] at h
      have hrec := ih parse pkg ks (structs ++ [a]) S P h
      rcases hrec with ⟨hS, hP⟩
      have hdirs : goDirs pkg (a :: rest) = goDirs pkg rest :=
        goDirs_cons_nongo pkg rest (by simpa using hgo)
      constructor
      · rw [hS, hdirs]
        simp [specList, specEntry, hgo]
      · rw [hP, hdirs]

/-- When every `.go` argument parses, the collector succeeds. -/
theorem collect_ok_of_parses :
    ∀ (args : List String) (parse : String → Except String (List String))
      (pkg : String) (structs : List String) (paths : List (String × Nat)),
      (∀ a ∈ args, goHasSuffix a ".go" = true →
        ∃ l, parse a = .ok l) →
      ∃ S P, collectLoop parse pkg args structs paths = .ok (S, P) := by
  intro args
  induction args with
  | nil =>
    intro parse pkg structs paths _
    exact ⟨structs, paths, rfl⟩
  | cons a rest ih =>
    intro parse pkg structs paths hok
    rw [collectLoop]
    by_cases hgo : goHasSuffix a ".go"
    · rw [if_pos hgo]
      rcases hok a (List.mem_cons_self a rest) hgo with ⟨l, hl⟩
      rw [hl]
      exact ih parse pkg _ _
        (fun b hb hbgo => hok b (List.mem_cons_of_mem a hb) hbgo)
    · rw [if_neg hgo]
      exact ih parse pkg _ _
        (fun b hb hbgo => hok b (List.mem_cons_of_mem a hb) hbgo)

/- ### Claim C9: argument order is preserved -/

/-- C9: when the collection loop succeeds, the reference list is exactly the
concatenation, in argument order, of each argument's own contribution (a bare
name by itself, a file's discovered names in declaration order, qualified by
the directory's first-seen alias); and the subsequent filter yields a
sublist (no reordering) of the trimmed reference list. -/
theorem references_in_argument_order
    (parse : String → Except String (List String)) (pkg : String)
    (args S : List String) (P : List (String × Nat))
    (h : collectLoop parse pkg args [] [] = .ok (S, P)) :
    S = specList (specEntry parse (firstSeen (goDirs pkg args)) pkg) args ∧
    List.Sublist (structsFilter S) (S.map goTrimSpace) := by
  have hspec := collect_spec args parse pkg [] [] S P h
  constructor
  · rw [hspec.1]
    rfl
  · rw [structsFilter_eq_filter]
    exact List.filter_sublist _

/-- Closed instance of `references_in_argument_order`: a bare name followed
by one file contributing two structs keeps the supplied order. -/
theorem references_in_argument_order_witness :
    collectLoop (fun _ => Except.ok ["T1", "T2"]) "p" ["Direct", "d/x.go"] [] [] =
      Except.ok (["Direct", "m0.T1", "m0.T2"], [("p/d", 0)]) ∧
    (["Direct", "m0.T1", "m0.T2"] =
      specList
        (specEntry (fun _ => Except.ok ["T1", "T2"])
          (firstSeen (goDirs "p" ["Direct", "d/x.go"])) "p")
        ["Direct", "d/x.go"] ∧
    List.Sublist (structsFilter ["Direct", "m0.T1", "m0.T2"])
      (["Direct", "m0.T1", "m0.T2"].map goTrimSpace)) :=
  ⟨by decide,
    references_in_argument_order (fun _ => Except.ok ["T1", "T2"]) "p"
      ["Direct", "d/x.go"] ["Direct", "m0.T1", "m0.T2"] [("p/d", 0)] (by decide)⟩

/- ### Claim C5: the reference filter -/

/-- C5 counterexample: the claim asserts that a surviving candidate passes
through unchanged; the candidate `" Foo"` (no separator, no leading dot,
non-empty after trimming) survives the filter, but it emerges trimmed to
`"Foo"`, not unchanged. -/
theorem filter_counterexample :
    structsFilter [" Foo"] = ["Foo"] ∧ structsFilter [" Foo"] ≠ [" Foo"] := by
  constructor <;> decide

/-- C5 amended: the filter drops exactly the candidates that — after
trimming — begin with `.`, contain a path separator, or are empty; every
other candidate passes through in trimmed form (not necessarily unchanged),
in order. -/
theorem filter_drop_conditions (l : List String) :
    structsFilter l = (l.map goTrimSpace).filter structKeep :=
  structsFilter_eq_filter l

/- ### Qualified-reference lemmas -/

theorem qualify_data (n : Nat) (s : String) :
    (qualify n s).data = 'm' :: ((natToStr n).data ++ '.' :: s.data) := by
  simp [qualify, String.data_append]

theorem qualify_chars_plain {s : String} (n : Nat)
    (hs : ∀ c ∈ s.data, goIsSpace c = false ∧ c ≠ '/') :
    ∀ c ∈ (qualify n s).data, goIsSpace c = false ∧ c ≠ '/' := by
  intro c hc
  rw [qualify_data] at hc
  rcases List.mem_cons.mp hc with h | h
  · subst h
    exact ⟨by decide, by decide⟩
  rcases List.mem_append.mp h with h | h
  · have hb := natToStr_bounds n c h
    have hp := digit_plain hb.1 hb.2
    exact ⟨hp.1, hp.2.2⟩
  rcases List.mem_cons.mp h with h | h
  · subst h
    exact ⟨by decide, by decide⟩
  · exact hs c h

theorem qualify_keep {s : String} (n : Nat)
    (hs : ∀ c ∈ s.data, goIsSpace c = false ∧ c ≠ '/') :
    goTrimSpace (qualify n s) = qualify n s ∧
    structKeep (qualify n s) = true := by
  have hchars := qualify_chars_plain n hs
  constructor
  · exact goTrimSpace_id (fun c hc => (hchars c hc).1)
  · have h1 : goStartsWithDot (qualify n s) = false := by
      unfold goStartsWithDot
      rw [qualify_data]
      rfl
    have h2 : goContainsSep (qualify n s) = false := by
      unfold goContainsSep
      rw [List.any_eq_false]
      intro c hc
      simp only [decide_eq_true_eq]
      exact (hchars c hc).2
    have h3 : qualify n s ≠ "" := by
      intro he
      have hd := congrArg String.data he
      rw [qualify_data] at hd
      cases hd
    unfold structKeep
    rw [h1, h2, decide_eq_true ((strLenPos _).mpr h3)]
    rfl

/- ### Claim C4: two files sharing one directory -/

/-- C4: two `.go` arguments resolving to the same directory, each declaring
one exported struct, produce one alias-map entry — hence exactly one import
line — and exactly two register-type statements, both qualified with the
alias `m0` of that single import. -/
theorem two_files_single_import
    (parse : String → Except String (List String)) (pkg f1 f2 s1 s2 : String)
    (h1 : goHasSuffix f1 ".go" = true) (h2 : goHasSuffix f2 ".go" = true)
    (hdir : goDir (goJoin pkg f2) = goDir (goJoin pkg f1))
    (hp1 : parse f1 = Except.ok [s1]) (hp2 : parse f2 = Except.ok [s2])
    (hc1 : ∀ c ∈ s1.data, goIsSpace c = false ∧ c ≠ '/')
    (hc2 : ∀ c ∈ s2.data, goIsSpace c = false ∧ c ≠ '/') :
    collectLoop parse pkg [f1, f2] [] [] =
      Except.ok ([qualify 0 s1, qualify 0 s2], [(goDir (goJoin pkg f1), 0)]) ∧
    structsFilter [qualify 0 s1, qualify 0 s2] =
      [qualify 0 s1, qualify 0 s2] ∧
    ([(goDir (goJoin pkg f1), 0)].map modelLine).length = 1 ∧
    [qualify 0 s1, qualify 0 s2].map addLine =
      ["\tt.Add(" ++ qualify 0 s1 ++ "\x7b\x7d)\n",
       "\tt.Add(" ++ qualify 0 s2 ++ "\x7b\x7d)\n"] ∧
    qualify 0 s1 = "m0." ++ s1 ∧
    modelLine (goDir (goJoin pkg f1), 0) =
      "m0 " ++ goQuote (goDir (goJoin pkg f1)) := by
  obtain ⟨S, P, hSP⟩ := collect_ok_of_parses [f1, f2] parse pkg [] [] (by
    intro a ha _
    rcases List.mem_cons.mp ha with he | he
    · exact ⟨[s1], he ▸ hp1⟩
    rcases List.mem_cons.mp he with he2 | he2
    · exact ⟨[s2], he2 ▸ hp2⟩
    · cases he2)
  obtain ⟨hS, hP⟩ := collect_spec [f1, f2] parse pkg [] [] S P hSP
  have hdirs : goDirs pkg [f1, f2] =
      [goDir (goJoin pkg f1), goDir (goJoin pkg f1)] := by
    simp [goDirs, List.filter, h1, h2, hdir]
  have hfs : firstSeenFrom [] (goDirs pkg [f1, f2]) = [goDir (goJoin pkg f1)] := by
    rw [hdirs]
    simp [firstSeenFrom, seenAdd]
  have hSval : S = [qualify 0 s1, qualify 0 s2] := by
    rw [hS, hfs]
    simp [specList, specEntry, h1, h2, hp1, hp2, getOk, hdir, idxOfD]
  have hPval : P = [(goDir (goJoin pkg f1), 0)] := by
    rw [hP, hfs]
    rfl
  have k1 := qualify_keep (s := s1) 0 hc1
  have k2 := qualify_keep (s := s2) 0 hc2
  refine ⟨by rw [← hSval, ← hPval]; exact hSP, ?_, by simp, by simp [addLine], ?_, ?_⟩
  · rw [structsFilter_eq_filter]
    simp [k1.1, k1.2, k2.1, k2.2]
  · show ("m" ++ natToStr 0 ++ "." ++ s1) = "m0." ++ s1
    have hpre : ("m" ++ natToStr 0 ++ ".") = "m0." := by decide
    rw [show ("m" ++ natToStr 0 ++ "." ++ s1) = ("m" ++ natToStr 0 ++ ".") ++ s1
      from rfl, hpre]
  · show ("m" ++ natToStr 0 ++ " " ++ goQuote (goDir (goJoin pkg f1))) =
      "m0 " ++ goQuote (goDir (goJoin pkg f1))
    have hpre : ("m" ++ natToStr 0 ++ " ") = "m0 " := by decide
    rw [show ("m" ++ natToStr 0 ++ " " ++ goQuote (goDir (goJoin pkg f1))) =
      ("m" ++ natToStr 0 ++ " ") ++ goQuote (goDir (goJoin pkg f1)) from rfl, hpre]

/-- Closed instance of `two_files_single_import`: the files `sub/a.go` and
`sub/b.go` under package root `models` share the single import
`m0 "models/sub"` and register `m0.Alpha` and `m0.Beta`. -/
theorem two_files_single_import_witness :
    goDir (goJoin "models" "sub/b.go") = goDir (goJoin "models" "sub/a.go") ∧
    collectLoop
        (fun a => if a = "sub/a.go" then Except.ok ["Alpha"] else Except.ok ["Beta"])
        "models" ["sub/a.go", "sub/b.go"] [] [] =
      Except.ok ([qualify 0 "Alpha", qualify 0 "Beta"],
        [(goDir (goJoin "models" "sub/a.go"), 0)]) :=
  ⟨by decide,
    (two_files_single_import
      (fun a => if a = "sub/a.go" then Except.ok ["Alpha"] else Except.ok ["Beta"])
      "models" "sub/a.go" "sub/b.go" "Alpha" "Beta"
      (by decide) (by decide) (by decide) (by decide) (by decide)
      (by decide) (by decide)).1⟩

/- ### Unfolding `tmain` past a successful collection -/

theorem tmain_ok_unfold (env : Env) (flags : Flags) (args S : List String)
    (P : List (String × Nat))
    (h : collectLoop env.parseGoFile flags.modelsPackage args [] [] =
      Except.ok (S, P)) :
    tmain env flags args =
      (if flags.modelsPackage.length = 0 then MainOutcome.exitNoPackage
       else if flags.targetFile.length = 0 then MainOutcome.exitNoTarget
       else
         match (if flags.extraImports = "" then Except.ok ""
                else env.readFile flags.extraImports) with
         | .error e => MainOutcome.ioPanic e
         | .ok ei =>
           match (if flags.extraCommands = "" then Except.ok ""
                  else env.readFile flags.extraCommands) with
           | .error e => MainOutcome.ioPanic e
           | .ok ec =>
             match env.runGo (renderProgram (buildParams flags S P ei ec)) with
             | (_, true) =>
               MainOutcome.ok (renderProgram (buildParams flags S P ei ec))
             | (out, false) =>
               MainOutcome.runFailure out
                 (renderProgram (buildParams flags S P ei ec))) := by
  unfold tmain
  rw [h]

/- ### Claim C2: missing required flags -/

/-- C2 counterexample: with `package` and `target` both missing but a
positional `.go` file that fails to parse, the invocation ends in the parse
panic, not in the exit-status-1 path — so the claim does not hold for every
combination of positional arguments. -/
theorem missing_flags_counterexample :
    tmain
        ⟨fun _ => Except.error "unexpected token", fun _ => Except.ok "",
          fun _ => ("", true)⟩
        ⟨"", "", "", "", "", false, [], false⟩ ["broken.go"] =
      MainOutcome.parsePanic
        "Error loading/parsing golang file broken.go: unexpected token" ∧
    tmain
        ⟨fun _ => Except.error "unexpected token", fun _ => Except.ok "",
          fun _ => ("", true)⟩
        ⟨"", "", "", "", "", false, [], false⟩ ["broken.go"] ≠
      MainOutcome.exitNoPackage ∧
    tmain
        ⟨fun _ => Except.error "unexpected token", fun _ => Except.ok "",
          fun _ => ("", true)⟩
        ⟨"", "", "", "", "", false, [], false⟩ ["broken.go"] ≠
      MainOutcome.exitNoTarget := by
  refine ⟨by decide, by decide, by decide⟩

/-- C2 amended: provided every positional `.go` argument parses successfully,
a missing `package` or `target` flag makes the process exit with status 1
(the `exitNoPackage` / `exitNoTarget` outcomes) before the temporary file is
created. -/
theorem missing_flags_exit
    (env : Env) (flags : Flags) (args : List String)
    (hparse : ∀ a ∈ args, goHasSuffix a ".go" = true →
      ∃ l, env.parseGoFile a = Except.ok l)
    (hmiss : flags.modelsPackage = "" ∨ flags.targetFile = "") :
    (tmain env flags args = MainOutcome.exitNoPackage ∨
      tmain env flags args = MainOutcome.exitNoTarget) ∧
    tempFileCreated (tmain env flags args) = false := by
  obtain ⟨S, P, hSP⟩ :=
    collect_ok_of_parses args env.parseGoFile flags.modelsPackage [] [] hparse
  have hmain := tmain_ok_unfold env flags args S P hSP
  rcases hmiss with h | h
  · have hpkg : flags.modelsPackage.length = 0 := by rw [h]; rfl
    rw [hmain, if_pos hpkg]
    exact ⟨Or.inl rfl, rfl⟩
  · by_cases hpkg : flags.modelsPackage.length = 0
    · rw [hmain, if_pos hpkg]
      exact ⟨Or.inl rfl, rfl⟩
    · have htgt : flags.targetFile.length = 0 := by rw [h]; rfl
      rw [hmain, if_neg hpkg, if_pos htgt]
      exact ⟨Or.inr rfl, rfl⟩

/-- Closed instance of `missing_flags_exit`: empty flags with one parseable
`.go` argument exit via the missing-package path with no temporary file. -/
theorem missing_flags_exit_witness :
    (∀ a ∈ ["a.go"], goHasSuffix a ".go" = true →
      ∃ l, (⟨fun _ => Except.ok ["A"], fun _ => Except.ok "",
        fun _ => ("", true)⟩ : Env).parseGoFile a = Except.ok l) ∧
    ((tmain ⟨fun _ => Except.ok ["A"], fun _ => Except.ok "", fun _ => ("", true)⟩
        ⟨"", "", "", "", "", false, [], false⟩ ["a.go"] =
          MainOutcome.exitNoPackage ∨
      tmain ⟨fun _ => Except.ok ["A"], fun _ => Except.ok "", fun _ => ("", true)⟩
        ⟨"", "", "", "", "", false, [], false⟩ ["a.go"] =
          MainOutcome.exitNoTarget) ∧
      tempFileCreated
        (tmain ⟨fun _ => Except.ok ["A"], fun _ => Except.ok "", fun _ => ("", true)⟩
          ⟨"", "", "", "", "", false, [], false⟩ ["a.go"]) = false) :=
  ⟨fun _ _ _ => ⟨["A"], rfl⟩,
    missing_flags_exit
      ⟨fun _ => Except.ok ["A"], fun _ => Except.ok "", fun _ => ("", true)⟩
      ⟨"", "", "", "", "", false, [], false⟩ ["a.go"]
      (fun _ _ _ => ⟨["A"], rfl⟩) (Or.inl rfl)⟩

/- ### Claim C10: parsing precedes flag validation -/

/-- C10: positional `.go` arguments are parsed before the required-flag
checks, so a file that fails to parse aborts the run via the parse panic even
though both required flags are missing — the exit-1 validation never runs and
no temporary file is created. -/
theorem parse_runs_before_validation :
    tmain
        ⟨fun f => Except.error ("bad syntax in " ++ f), fun _ => Except.ok "",
          fun _ => ("", true)⟩
        ⟨"", "", "", "", "", false, [], false⟩ ["models.go"] =
      MainOutcome.parsePanic
        "Error loading/parsing golang file models.go: bad syntax in models.go" ∧
    tempFileCreated
      (tmain
        ⟨fun f => Except.error ("bad syntax in " ++ f), fun _ => Except.ok "",
          fun _ => ("", true)⟩
        ⟨"", "", "", "", "", false, [], false⟩ ["models.go"]) = false ∧
    tmain
        ⟨fun f => Except.error ("bad syntax in " ++ f), fun _ => Except.ok "",
          fun _ => ("", true)⟩
        ⟨"", "", "", "", "", false, [], false⟩ ["models.go"] ≠
      MainOutcome.exitNoPackage := by
  refine ⟨by decide, by decide, by decide⟩

/- ### Claim C8: subprocess failure surfaces its output -/

/-- C8: whenever the pipeline reaches execution and the `go run` child exits
with failure, its combined output is printed to standard output verbatim
before the invocation aborts with a fatal panic — the failure is terminal. -/
theorem subprocess_failure_prints_output
    (env : Env) (flags : Flags) (args S : List String) (P : List (String × Nat))
    (ei ec out : String)
    (hc : collectLoop env.parseGoFile flags.modelsPackage args [] [] =
      Except.ok (S, P))
    (hpkg : flags.modelsPackage.length ≠ 0)
    (htgt : flags.targetFile.length ≠ 0)
    (hei : (if flags.extraImports = "" then Except.ok ""
            else env.readFile flags.extraImports) = Except.ok ei)
    (hec : (if flags.extraCommands = "" then Except.ok ""
            else env.readFile flags.extraCommands) = Except.ok ec)
    (hrun : env.runGo (renderProgram (buildParams flags S P ei ec)) =
      (out, false)) :
    tmain env flags args =
      MainOutcome.runFailure out (renderProgram (buildParams flags S P ei ec)) ∧
    printedOnFailure (tmain env flags args) = some out ∧
    fatalFailure (tmain env flags args) = true := by
  have hmain : tmain env flags args =
      MainOutcome.runFailure out (renderProgram (buildParams flags S P ei ec)) := by
    rw [tmain_ok_unfold env flags args S P hc, if_neg hpkg, if_neg htgt, hei,
      hec]
    show (match env.runGo (renderProgram (buildParams flags S P ei ec)) with
          | (_, true) =>
            MainOutcome.ok (renderProgram (buildParams flags S P ei ec))
          | (o, false) =>
            MainOutcome.runFailure o
              (renderProgram (buildParams flags S P ei ec))) =
        MainOutcome.runFailure out (renderProgram (buildParams flags S P ei ec))
    rw [hrun]
  exact ⟨hmain, by rw [hmain]; rfl, by rw [hmain]; rfl⟩

/-- Closed instance of `subprocess_failure_prints_output`: a child that fails
with output `"go build failed"` gets that text printed before the abort. -/
theorem subprocess_failure_witness :
    (⟨fun _ => Except.ok [], fun _ => Except.ok "",
        fun _ => ("go build failed", false)⟩ : Env).runGo
      (renderProgram
        (buildParams ⟨"p", "out.ts", "", "", "", false, [], false⟩ [] [] "" "")) =
      ("go build failed", false) ∧
    tmain
        ⟨fun _ => Except.ok [], fun _ => Except.ok "",
          fun _ => ("go build failed", false)⟩
        ⟨"p", "out.ts", "", "", "", false, [], false⟩ [] =
      MainOutcome.runFailure "go build failed"
        (renderProgram
          (buildParams ⟨"p", "out.ts", "", "", "", false, [], false⟩ [] [] "" "")) ∧
    printedOnFailure
      (tmain
        ⟨fun _ => Except.ok [], fun _ => Except.ok "",
          fun _ => ("go build failed", false)⟩
        ⟨"p", "out.ts", "", "", "", false, [], false⟩ []) =
      some "go build failed" := by
  have h := subprocess_failure_prints_output
    ⟨fun _ => Except.ok [], fun _ => Except.ok "",
      fun _ => ("go build failed", false)⟩
    ⟨"p", "out.ts", "", "", "", false, [], false⟩ [] [] [] "" "" "go build failed"
    rfl (by decide) (by decide) rfl rfl rfl
  exact ⟨rfl, h.1, h.2.1⟩

/- ### Type-name-part lemmas -/

theorem takeWhile_append_stop {p : Char → Bool} :
    ∀ (l1 : List Char) (a : Char) (l2 : List Char),
      (∀ c ∈ l1, p c = true) → p a = false →
      (l1 ++ a :: l2).takeWhile p = l1 := by
  intro l1
  induction l1 with
  | nil =>
    intro a l2 _ ha
    simp [List.takeWhile_cons, ha]
  | cons c cs ih =>
    intro a l2 hall ha
    rw [List.cons_append, List.takeWhile_cons,
      hall c (List.mem_cons_self c cs)]
    rw [ih a l2 (fun c2 hc2 => hall c2 (List.mem_cons_of_mem c hc2)) ha]
    simp

theorem typeNamePart_qualify {nm : String} (k : Nat)
    (hnodot : ∀ c ∈ nm.data, c ≠ '.') :
    typeNamePart (qualify k nm) = nm := by
  rcases hq : qualify k nm with ⟨d⟩
  have hd : d = 'm' :: ((natToStr k).data ++ '.' :: nm.data) := by
    rw [← qualify_data k nm, hq]
  unfold typeNamePart
  rw [show (String.mk d).data = d from rfl, hd]
  have hrev : ('m' :: ((natToStr k).data ++ '.' :: nm.data)).reverse =
      nm.data.reverse ++ '.' :: ((natToStr k).data.reverse ++ ['m']) := by
    simp
  rw [hrev, takeWhile_append_stop nm.data.reverse '.' _
    (fun c hc => by
      simp only [decide_eq_true_eq]
      exact hnodot c (List.mem_reverse.mp hc))
    (by decide), List.reverse_reverse]

theorem qualify_nospace {s : String} (n : Nat)
    (hs : ∀ c ∈ s.data, goIsSpace c = false) :
    ∀ c ∈ (qualify n s).data, goIsSpace c = false := by
  intro c hc
  rw [qualify_data] at hc
  rcases List.mem_cons.mp hc with h | h
  · subst h
    decide
  rcases List.mem_append.mp h with h | h
  · have hb := natToStr_bounds n c h
    exact (digit_plain hb.1 hb.2).1
  rcases List.mem_cons.mp h with h | h
  · subst h
    decide
  · exact hs c h

theorem mem_structsFilter {S : List String} {s : String}
    (h : s ∈ structsFilter S) : ∃ x ∈ S, s = goTrimSpace x := by
  rw [structsFilter_eq_filter] at h
  have hm := List.mem_of_mem_filter h
  rcases List.mem_map.mp hm with ⟨x, hx, he⟩
  exact ⟨x, hx, he.symm⟩

theorem mem_specList {f : String → List String} :
    ∀ {args : List String} {x : String},
      x ∈ specList f args → ∃ a ∈ args, x ∈ f a := by
  intro args
  induction args with
  | nil => intro x h; cases h
  | cons a rest ih =>
    intro x h
    rw [specList] at h
    rcases List.mem_append.mp h with h | h
    · exact ⟨a, List.mem_cons_self a rest, h⟩
    · rcases ih h with ⟨b, hb, hfb⟩
      exact ⟨b, List.mem_cons_of_mem a hb, hfb⟩

/- ### Claim C1: the exported-visibility filter and bare names -/

/-- C1 counterexample: the bare positional name `"foo"` begins with a
lower-case letter, yet the invocation succeeds and the rendered driver
program contains the register statement `t.Add(foo{})` — the exported-
visibility check is not applied to direct positional names. -/
theorem exported_filter_counterexample :
    goIsUpperFirst "foo" = false ∧
    tmain ⟨fun _ => Except.ok [], fun _ => Except.ok "", fun _ => ("", true)⟩
        ⟨"p", "out.ts", "", "", "", false, [], false⟩ ["foo"] =
      MainOutcome.ok
        (renderProgram
          (buildParams ⟨"p", "out.ts", "", "", "", false, [], false⟩
            ["foo"] [] "" "")) ∧
    (buildParams ⟨"p", "out.ts", "", "", "", false, [], false⟩
      ["foo"] [] "" "").Structs = ["foo"] ∧
    strContains
      (renderProgram
        (buildParams ⟨"p", "out.ts", "", "", "", false, [], false⟩
          ["foo"] [] "" ""))
      "\tt.Add(foo\x7b\x7d)\n" = true := by
  refine ⟨by decide, by rfl, by decide, by decide⟩

/-- C1 amended: the exported-visibility filter is not applied uniformly.
Bare positional names reach the driver with no case check at all (the
counterexample), and for file-derived references the code guarantees only
the scanner's first-byte test `unicode.IsUpper(rune(name[0]))` — equal to
"begins with an upper-case letter" for ASCII names, but also passed by some
lower-case-initial non-ASCII names such as `ä`.  Formally: when every parse
result is a scanner output over identifier-shaped names (no white space, no
`.`), and every bare positional name's trimmed type-name part passes the
first-byte test, then every reference in the rendered program has a
type-name part passing the first-byte test; the file-derived half is derived
from the scanner, not assumed. -/
theorem references_upper_typename
    (parse : String → Except String (List String)) (pkg : String)
    (args S : List String) (P : List (String × Nat))
    (hid : ∀ a l, parse a = Except.ok l →
      (∃ ns, l = GetGolangFileStructs ns) ∧
        ∀ nm ∈ l, ∀ c ∈ nm.data, goIsSpace c = false ∧ c ≠ '.')
    (hdirect : ∀ a ∈ args, goHasSuffix a ".go" = false →
      goIsUpperFirst (typeNamePart (goTrimSpace a)) = true)
    (hc : collectLoop parse pkg args [] [] = Except.ok (S, P)) :
    ∀ s ∈ structsFilter S, goIsUpperFirst (typeNamePart s) = true := by
  intro s hs
  rcases mem_structsFilter hs with ⟨x, hxS, hsx⟩
  have hspec := (collect_spec args parse pkg [] [] S P hc).1
  rw [List.nil_append] at hspec
  rw [hspec] at hxS
  rcases mem_specList hxS with ⟨a, haargs, hxa⟩
  by_cases hgo : goHasSuffix a ".go"
  · rw [specEntry, if_pos hgo] at hxa
    rcases List.mem_map.mp hxa with ⟨nm, hnm, hq⟩
    cases hp : parse a with
    | error e =>
      rw [hp] at hnm
      cases hnm
    | ok l =>
      rw [hp] at hnm
      rcases hid a l hp with ⟨⟨ns, hns⟩, hchars⟩
      have hupper : goIsUpperFirst nm = true := by
        have hmem : nm ∈ GetGolangFileStructs ns := by
          rw [← hns]
          exact hnm
        rw [scanner_eq_adj] at hmem
        exact adj_upper ns nm hmem
      have hnospace : ∀ c ∈ nm.data, goIsSpace c = false :=
        fun c hc2 => (hchars nm hnm c hc2).1
      have hnodot : ∀ c ∈ nm.data, c ≠ '.' :=
        fun c hc2 => (hchars nm hnm c hc2).2
      rw [hsx, ← hq, goTrimSpace_id (qualify_nospace _ hnospace),
        typeNamePart_qualify _ hnodot]
      exact hupper
  · rw [specEntry, if_neg hgo] at hxa
    rw [List.mem_singleton] at hxa
    subst hxa
    rw [hsx]
    exact hdirect x haargs (by simpa using hgo)

/-- Closed instance of `references_upper_typename`: one bare upper-case name
and one reference derived from the scanner run on `type Mdl struct {...}`;
every surviving reference's type-name part passes the first-byte test. -/
theorem references_upper_typename_witness :
    collectLoop (fun _ => Except.ok ["Mdl"]) "p" ["Direct", "f.go"] [] [] =
      Except.ok (["Direct", "m0.Mdl"], [("p", 0)]) ∧
    (∀ s ∈ structsFilter ["Direct", "m0.Mdl"],
      goIsUpperFirst (typeNamePart s) = true) :=
  ⟨by decide, by
    intro s hs
    refine references_upper_typename (fun _ => Except.ok ["Mdl"]) "p"
      ["Direct", "f.go"] ["Direct", "m0.Mdl"] [("p", 0)] ?_ ?_ (by decide) s hs
    · intro a l h
      have hl : (["Mdl"] : List String) = l := Except.ok.inj h
      rw [← hl]
      exact ⟨⟨[Node.ident "Mdl", Node.structType], by decide⟩, by decide⟩
    · intro a ha hgo
      rcases List.mem_cons.mp ha with he | he
      · subst he
        decide
      · rw [List.mem_singleton] at he
        subst he
        exact absurd hgo (by decide)⟩
